import Mathlib

/-!
# Verification of the prpy vector-field planner core

A shallow embedding of `src/prpy/planning/vectorfield.py` (the
`FollowVectorField` integration driver, its constraint monitor
`fn_status_callback`, its per-step callback `fn_callback`, and the
trajectory cache/truncation logic) together with the deferred trajectory
execution logic of `src/prpy/base/robot.py` (`ExecuteTrajectory`).

Joint values and times are modelled as rationals; configurations are
lists of rationals.  The adaptive ODE solver (`scipy.integrate.ode` with
the `dopri5` stepper) is modelled by the stream of accepted integration
samples it hands to its `solout` callback: the driver is parameterized
by that stream.  Python exceptions raised from inside the callbacks are
modelled by explicit `Option Fault` results threaded through the driver.

Helper functions of `prpy.util` that are referenced but whose source is
not part of this repository snapshot (`GetCollisionCheckPts`,
`SetTrajectoryTags`) are modelled from the specification, as marked in
their doc comments.
-/

namespace PrPy

/-- A robot configuration: one rational joint value per active DOF. -/
abbrev Config := List ℚ

/-- The termination-predicate status protocol of `vectorfield.py`
(`class Status(Enum)`). -/
inductive Status
  | TERMINATE
  | CACHE_AND_CONTINUE
  | CONTINUE
  | CACHE_AND_TERMINATE
deriving DecidableEq, Repr

/-- `Status.DoesTerminate`: status is `TERMINATE` or `CACHE_AND_TERMINATE`. -/
def Status.DoesTerminate : Status → Bool
  | .TERMINATE => true
  | .CACHE_AND_TERMINATE => true
  | _ => false

/-- `Status.DoesCache`: status is `CACHE_AND_CONTINUE` or `CACHE_AND_TERMINATE`. -/
def Status.DoesCache : Status → Bool
  | .CACHE_AND_CONTINUE => true
  | .CACHE_AND_TERMINATE => true
  | _ => false

/-- The planning faults that can abort integration.  These model the
exception classes used by `FollowVectorField`: `TimeLimitError`,
`JointLimitError` (with the DOF index, offending value, violated limit
and whether it was the lower bound), `CollisionPlanningError`,
`SelfCollisionPlanningError`, `TerminationError`, and the generic
`PlanningError('An unknown error has occurred.')`. -/
inductive Fault
  | TimeLimitError
  | JointLimitError (dofIndex : ℕ) (dofValue : ℚ) (dofLimit : ℚ) (isLower : Bool)
  | CollisionError
  | SelfCollisionError
  | TerminationError
  | UnknownPlanningError
deriving DecidableEq, Repr

/-- A raw-path waypoint: the delta time from the previous waypoint and
the configuration, exactly the layout `fn_callback` inserts into the
OpenRAVE path (`InsertDeltaTime` / `InsertJointValues`). -/
structure Waypoint where
  deltaTime : ℚ
  q : Config
deriving DecidableEq, Repr

/-- Trace events recorded by the embedded driver: appending a waypoint
to the raw path at integration time `t`, and running the constraint
monitor (`fn_status_callback`) on the sample at time `t`. -/
inductive Event
  | appendWp (t : ℚ)
  | monitorAt (t : ℚ)
deriving DecidableEq, Repr

/-- A trajectory tag value.  `FollowVectorField` writes the *string*
`'true'`; `PlanToEndEffectorPose` writes the *boolean* `False`. -/
inductive TagValue
  | str (s : String)
  | bool (b : Bool)
deriving DecidableEq, Repr

/-- The output trajectory: an ordered waypoint sequence plus tag map.
`hasDeltaTime` records whether the trajectory's configuration
specification contains a `deltatime` group (the raw path's does; the
output spec built from `GetActiveConfigurationSpecification('linear')`
does not, so the output is untimed). -/
structure Traj where
  waypoints : List Config
  hasDeltaTime : Bool
  tags : List (String × TagValue)
deriving DecidableEq, Repr

/-- The environment of one `FollowVectorField` call: the robot's
per-DOF position limits and active indices, the collision oracles, the
per-DOF resolution used for collision-safe discretization, and the wall
clock (`timelimitHit k` holds when the `time.time() - time_start >=
timelimit` test fires on the `k`-th constraint-monitor invocation). -/
structure PlanEnv where
  qLimitMin : List ℚ
  qLimitMax : List ℚ
  activeIndices : List ℕ
  envCollision : Config → Bool
  selfCollision : Config → Bool
  dofResolution : List ℚ
  timelimitHit : ℕ → Bool

/-- The mutable state shared by the nested callbacks of
`FollowVectorField` (the Python `nonlocals` dict, the OpenRAVE `path`
object and the robot's committed configuration), plus a trace of
events, of cache-pointer writes, and the monitor invocation counter. -/
structure DriverState where
  exception : Option Fault
  t_cache : Option ℚ
  t_check : ℚ
  path : List Waypoint
  robotConfig : Config
  callCount : ℕ
  cacheWrites : List ℚ
  events : List Event
deriving DecidableEq, Repr

/-- The driver state at the start of a `FollowVectorField` call, with
the robot at configuration `q0`. -/
def initState (q0 : Config) : DriverState :=
  { exception := none
    t_cache := none
    t_check := 0
    path := []
    robotConfig := q0
    callCount := 0
    cacheWrites := []
    events := [] }

/-- Index of the first DOF whose value is strictly below its limit
(`lower_position_violations = (q < q_limit_min)`, first nonzero index). -/
def firstIdxLt (q lim : List ℚ) : Option ℕ :=
  List.findIdx? (fun p => decide (p.1 < p.2)) (q.zip lim)

/-- Index of the first DOF whose value is strictly above its limit
(`upper_position_violations = (q > q_limit_max)`, first nonzero index). -/
def firstIdxGt (q lim : List ℚ) : Option ℕ :=
  List.findIdx? (fun p => decide (p.2 < p.1)) (q.zip lim)

/-- The constraint monitor `fn_status_callback(t, q)` of
`FollowVectorField`: wall-clock check, per-DOF lower then upper
position-limit checks (before committing `q` to the robot), commit,
environment- then self-collision checks, then the termination
predicate; a caching status records `t` as the cache pointer before a
terminating status raises `TerminationError`.  The termination
predicate is modelled as a function of the invocation counter and the
committed configuration (a Python closure may be stateful and reads the
robot's state).  A raised exception is returned as `some fault`. -/
def fn_status_callback (env : PlanEnv) (fn_terminate : ℕ → Config → Status)
    (st : DriverState) (t : ℚ) (q : Config) : DriverState × Option Fault :=
  let k := st.callCount
  let st1 := { st with callCount := k + 1, events := st.events ++ [Event.monitorAt t] }
  if env.timelimitHit k then (st1, some .TimeLimitError)
  else
    match firstIdxLt q env.qLimitMin with
    | some i =>
        (st1, some (.JointLimitError (env.activeIndices.getD i 0) (q.getD i 0)
          (env.qLimitMin.getD i 0) true))
    | none =>
      match firstIdxGt q env.qLimitMax with
      | some i =>
          (st1, some (.JointLimitError (env.activeIndices.getD i 0) (q.getD i 0)
            (env.qLimitMax.getD i 0) false))
      | none =>
        let st2 := { st1 with robotConfig := q }
        if env.envCollision q then (st2, some .CollisionError)
        else if env.selfCollision q then (st2, some .SelfCollisionError)
        else
          let status := fn_terminate k q
          let st3 :=
            if status.DoesCache then
              { st2 with t_cache := some t, cacheWrites := st2.cacheWrites ++ [t] }
            else st2
          if status.DoesTerminate then (st3, some .TerminationError) else (st3, none)

/-- The total duration of a raw path (`path.GetDuration()`): the sum of
the per-waypoint delta times. -/
def pathDuration (p : List Waypoint) : ℚ :=
  (p.map Waypoint.deltaTime).sum

/-- Pair each waypoint with its cumulative time, starting from the
accumulated time `a`. -/
def cumPathAux (a : ℚ) : List Waypoint → List (ℚ × Waypoint)
  | [] => []
  | w :: ws => (a + w.deltaTime, w) :: cumPathAux (a + w.deltaTime) ws

/-- Each waypoint of a raw path paired with its cumulative time. -/
def cumPath (p : List Waypoint) : List (ℚ × Waypoint) :=
  cumPathAux 0 p

/-- The cumulative times of a raw path's waypoints. -/
def cumTimes (p : List Waypoint) : List ℚ :=
  (cumPath p).map Prod.fst

/-- `traj.GetFirstWaypointIndexAfterTime(t)` on the raw path: the index
of the first waypoint whose cumulative time is at least `t` (the length
of the path when there is none). -/
def GetFirstWaypointIndexAfterTime (p : List Waypoint) (t : ℚ) : ℕ :=
  List.findIdx (fun c => decide (t ≤ c)) (cumTimes p)

/-- Linear interpolation between two configurations at parameter `s`. -/
def lerpConfig (qA qB : Config) (s : ℚ) : Config :=
  (qA.zip qB).map (fun x => x.1 + s * (x.2 - x.1))

/-- `path.Sample(t)` for a `'linear'` interpolation trajectory: walk to
the segment containing `t` and interpolate; clamp before the first and
after the last waypoint. -/
def samplePathAux (t : ℚ) : ℚ → Config → List Waypoint → Config
  | _, qA, [] => qA
  | tA, qA, w :: ws =>
    if t ≤ tA + w.deltaTime then
      if w.deltaTime = 0 then w.q
      else lerpConfig qA w.q ((t - tA) / w.deltaTime)
    else samplePathAux t (tA + w.deltaTime) w.q ws

/-- `path.Sample(t)` on the raw path (configuration part only). -/
def samplePath (p : List Waypoint) (t : ℚ) : Config :=
  match p with
  | [] => []
  | w0 :: ws => if t ≤ w0.deltaTime then w0.q else samplePathAux t w0.deltaTime w0.q ws

/-- The number of discretization substeps for one path segment: at
least one, and enough that no DOF moves more than its resolution
between consecutive samples. -/
def segmentSteps (res : List ℚ) (qA qB : Config) : ℕ :=
  ((qA.zip qB).zip res).foldr
    (fun x acc => max acc (Int.toNat ⌈|x.1.2 - x.1.1| / x.2⌉)) 1

/-- Modelled from the spec: one segment's worth of samples produced by
the discretization helper (`prpy.util.GetCollisionCheckPts`, whose
source is not in this repository snapshot): the linear segment from
`(tA, qA)` to `(tB, qB)` resampled at the per-DOF collision-safe
resolution, in increasing time order, excluding the segment's start
point and including its end point. -/
def segmentChecks (res : List ℚ) (tA : ℚ) (qA : Config) (tB : ℚ) (qB : Config) :
    List (ℚ × Config) :=
  let n := segmentSteps res qA qB
  (List.range n).map (fun (j : ℕ) =>
    (tA + (tB - tA) * ((j : ℚ) + 1) / (n : ℚ), lerpConfig qA qB (((j : ℚ) + 1) / (n : ℚ))))

/-- Modelled from the spec: samples of the whole path after the point
`(tA, qA)`, segment by segment. -/
def pathChecksAux (res : List ℚ) : ℚ → Config → List Waypoint → List (ℚ × Config)
  | _, _, [] => []
  | tA, qA, w :: ws =>
    segmentChecks res tA qA (tA + w.deltaTime) w.q ++
      pathChecksAux res (tA + w.deltaTime) w.q ws

/-- Modelled from the spec: `GetCollisionCheckPts(robot, path,
include_start=False)` — the discretization helper of `prpy.util` (not
in this repository snapshot), which given a path returns the
intermediate `(t, q)` samples required for resolution-safe constraint
checking.  Per the spec these cover the given path at a resolution no
coarser than the per-DOF collision-safe resolution, in increasing time
order; `include_start=False` drops the path's start point. -/
def GetCollisionCheckPts (env : PlanEnv) (p : List Waypoint) : List (ℚ × Config) :=
  match p with
  | [] => []
  | w0 :: ws => pathChecksAux env.dofResolution w0.deltaTime w0.q ws

/-- The `for t_check, q_check in checks` loop of `fn_callback`: run the
constraint monitor on each sample in order, recording `t_check` after
each successful check; a raised fault aborts the loop. -/
def runChecks (env : PlanEnv) (fn_terminate : ℕ → Config → Status) :
    DriverState → List (ℚ × Config) → DriverState × Option Fault
  | st, [] => (st, none)
  | st, c :: rest =>
    let res := fn_status_callback env fn_terminate st c.1 c.2
    match res.2 with
    | some f => (res.1, some f)
    | none => runChecks env fn_terminate { res.1 with t_check := c.1 } rest

/-- The solver's step callback `fn_callback(t, q)`: append the accepted
sample to the raw path (delta time `t - path.GetDuration()`), then run
the constraint monitor at the collision-check samples of the whole
current path (just the sample itself when the path has one waypoint).
Returns `0` to keep integrating, `-1` (with the pending exception
recorded) to stop. -/
def fn_callback (env : PlanEnv) (fn_terminate : ℕ → Config → Status)
    (st : DriverState) (t : ℚ) (q : Config) : DriverState × Int :=
  let wp : Waypoint := { deltaTime := t - pathDuration st.path, q := q }
  let st1 := { st with path := st.path ++ [wp], events := st.events ++ [Event.appendWp t] }
  let checks :=
    if st1.path.length = 1 then [(t, q)] else GetCollisionCheckPts env st1.path
  let res := runChecks env fn_terminate st1 checks
  match res.2 with
  | none => (res.1, 0)
  | some f => ({ res.1 with exception := some f }, -1)

/-- The integration loop: `scipy.integrate.ode` with `dopri5` invokes
`fn_callback` once per accepted step (the first call is the initial
sample); a `-1` return stops the integration immediately, so the
remaining accepted steps are never processed. -/
def integrateSteps (env : PlanEnv) (fn_terminate : ℕ → Config → Status) :
    DriverState → List (ℚ × Config) → DriverState
  | st, [] => st
  | st, s :: rest =>
    let res := fn_callback env fn_terminate st s.1 s.2
    if res.2 = 0 then integrateSteps env fn_terminate res.1 rest else res.1

/-- Modelled from the spec: `prpy.util.SetTrajectoryTags(traj, tags,
append=True)` (not in this repository snapshot) — merge the given tags
into the trajectory's string-keyed tag map, overriding existing
entries for the same key. -/
def SetTrajectoryTags (tags upd : List (String × TagValue)) : List (String × TagValue) :=
  upd.foldl (fun acc kv => acc.filter (fun p => p.1 ≠ kv.1) ++ [kv]) tags

/-- Look a tag up in a trajectory's tag map. -/
def getTag (tr : Traj) (k : String) : Option TagValue :=
  (tr.tags.find? (fun p => p.1 = k)).map Prod.snd

/-- `FollowVectorField(robot, fn_vectorfield, fn_terminate, ...)`:
drive the integrator over the accepted-sample stream `steps` from the
initial configuration `q0`, then: if the cache pointer was never set,
raise the pending exception (or a generic `PlanningError`); otherwise
log any pending exception and build the output trajectory from the
waypoints before `GetFirstWaypointIndexAfterTime(t_cache)` plus one
sample of the path at `t_cache`, under the *untimed* output
configuration specification, tagged `CONSTRAINED='true'` and
`SMOOTH='true'` (string values).  The `dt_multiplier` parameter is
accepted (mirroring the Python signature) and, as in the source, never
read. -/
def FollowVectorField (env : PlanEnv) (fn_terminate : ℕ → Config → Status)
    (q0 : Config) (steps : List (ℚ × Config)) (dt_multiplier : ℚ) :
    Except Fault Traj :=
  let _ := dt_multiplier
  let st := integrateSteps env fn_terminate (initState q0) steps
  match st.t_cache with
  | none => .error (st.exception.getD .UnknownPlanningError)
  | some t_cache =>
    let cached_index := GetFirstWaypointIndexAfterTime st.path t_cache
    .ok { waypoints := (st.path.take cached_index).map Waypoint.q ++ [samplePath st.path t_cache]
          hasDeltaTime := false
          tags := SetTrajectoryTags []
            [("constrained", .str "true"), ("smooth", .str "true")] }

/-- The tag override applied by `PlanToEndEffectorPose` after
`FollowVectorField` returns: `SetTrajectoryTags(traj, {Tags.CONSTRAINED:
False}, append=True)` — a *boolean* `False`. -/
def planToEndEffectorPoseTagOverride (tr : Traj) : Traj :=
  { tr with tags := SetTrajectoryTags tr.tags [("constrained", .bool false)] }

/-- `Robot.ExecuteTrajectory(traj, defer, timeout, period)` of
`base/robot.py`, modelled at poll-tick granularity: `isDone k` states
that every active controller reports done at poll tick `k`, and a
finite `timeout` allows `timeoutTicks + 1` polls (`while time.time() <=
time_stop`, first poll at elapsed time zero).  The synchronous branch
waits (`util.WaitForControllers`) and returns the input trajectory; the
deferred branch returns a future that resolves to the trajectory if the
controllers finish within the timeout window and to `None` otherwise;
with `timeout = None` the deferred poll loop only ever exits by
resolving to the trajectory. -/
def ExecuteTrajectory (traj : Traj) (defer : Bool) (timeoutTicks : Option ℕ)
    (isDone : ℕ → Bool) : Option Traj :=
  if defer then
    match timeoutTicks with
    | some limit => if (List.range (limit + 1)).any isDone then some traj else none
    | none => some traj
  else some traj

/-- Whether a `FollowVectorField` call returned a trajectory. -/
def isOk : Except Fault Traj → Bool
  | .ok _ => true
  | .error _ => false

/-- Stated from the spec's words, for comparison with the code: "the
*first* offending DOF in index order (deterministic tie-break)" — the
first index whose value violates either its lower or its upper position
limit. -/
def specFirstOffendingDOF (q lmin lmax : List ℚ) : Option ℕ :=
  List.findIdx? (fun x => decide (x.1.1 < x.1.2 ∨ x.2 < x.1.1)) ((q.zip lmin).zip lmax)

/-- The DOF index reported by a raised `JointLimitError`, if any. -/
def reportedDof : Option Fault → Option ℕ
  | some (.JointLimitError i _ _ _) => some i
  | _ => none

/-- Stated from the spec's words, for comparison with the code: the
event trace one accepted integration step should contribute if the
constraint monitor ran on the resampled interval *before* the step was
appended to the raw path — some monitor events followed by exactly one
append event. -/
def monitorsThenAppend : List Event → Bool
  | [] => false
  | [Event.appendWp _] => true
  | Event.monitorAt _ :: rest => monitorsThenAppend rest
  | _ => false

/-- A controller-completion oracle that never reports done. -/
def neverDone : ℕ → Bool := fun _ => false

/-! ### Concrete fixtures

A 1-DOF robot with position limits `[-10, 10]`, no obstacles, and the
accepted-sample stream of a unit-velocity field observed at integration
times `0`, `1`, `2`. -/

/-- Example environment: one DOF, limits `[-10, 10]`, collision-free,
DOF resolution `1`, wall clock never exceeded. -/
def exEnv : PlanEnv :=
  { qLimitMin := [-10]
    qLimitMax := [10]
    activeIndices := [0]
    envCollision := fun _ => false
    selfCollision := fun _ => false
    dofResolution := [1]
    timelimitHit := fun _ => false }

/-- Example termination predicate: cache-and-continue once the (single)
joint value reaches `1`. -/
def exPred : ℕ → Config → Status := fun _ q =>
  if 1 ≤ q.getD 0 0 then .CACHE_AND_CONTINUE else .CONTINUE

/-- Accepted integration samples of a unit velocity field from `q = 0`. -/
def exSteps : List (ℚ × Config) := [(0, [0]), (1, [1]), (2, [2])]

/-- The trajectory `FollowVectorField` produces on the example run. -/
def exTraj : Traj :=
  { waypoints := [[0], [1], [2]]
    hasDeltaTime := false
    tags := [("constrained", .str "true"), ("smooth", .str "true")] }

/-- The example environment with DOF resolution `1/2`, so every unit
integration step is checked at two intermediate samples. -/
def exEnvHalf : PlanEnv :=
  { exEnv with dofResolution := [1/2] }

/-- A (stateful) termination predicate that signals caching exactly on
its third and fourth invocations, as a Python closure may. -/
def exPredLate : ℕ → Config → Status := fun k _ =>
  if k = 2 ∨ k = 3 then .CACHE_AND_CONTINUE else .CONTINUE

/-- A 2-DOF environment whose lower limits are `[0, 0]` and upper
limits `[1, 1]`, with collision oracles that always report a hit (so a
sample can violate both a position limit and a hypothetical collision). -/
def exEnv2 : PlanEnv :=
  { qLimitMin := [0, 0]
    qLimitMax := [1, 1]
    activeIndices := [0, 1]
    envCollision := fun _ => true
    selfCollision := fun _ => true
    dofResolution := [1, 1]
    timelimitHit := fun _ => false }

/-- A termination predicate that never signals anything but `CONTINUE`. -/
def contPred : ℕ → Config → Status := fun _ _ => .CONTINUE

/-- A termination predicate that always requests plain termination. -/
def termPred : ℕ → Config → Status := fun _ _ => .TERMINATE

/-- A termination predicate that always caches and terminates. -/
def cacheTermPred : ℕ → Config → Status := fun _ _ => .CACHE_AND_TERMINATE

/-! ### Helper lemmas about the constraint monitor -/

/-- The constraint monitor never touches the raw path. -/
theorem fsc_path (env : PlanEnv) (fnt : ℕ → Config → Status) (st : DriverState)
    (t : ℚ) (q : Config) :
    (fn_status_callback env fnt st t q).1.path = st.path := by
  unfold fn_status_callback
  dsimp only
  repeat' split
  all_goals rfl

/-- The constraint monitor never touches the pending-exception slot. -/
theorem fsc_exception (env : PlanEnv) (fnt : ℕ → Config → Status) (st : DriverState)
    (t : ℚ) (q : Config) :
    (fn_status_callback env fnt st t q).1.exception = st.exception := by
  unfold fn_status_callback
  dsimp only
  repeat' split
  all_goals rfl

/-- One constraint-monitor invocation contributes exactly one monitor
event to the trace. -/
theorem fsc_events (env : PlanEnv) (fnt : ℕ → Config → Status) (st : DriverState)
    (t : ℚ) (q : Config) :
    (fn_status_callback env fnt st t q).1.events = st.events ++ [Event.monitorAt t] := by
  unfold fn_status_callback
  dsimp only
  repeat' split
  all_goals rfl

/-- One constraint-monitor invocation either leaves the cache-write
trace unchanged or appends the sample's own time. -/
theorem fsc_cacheWrites (env : PlanEnv) (fnt : ℕ → Config → Status) (st : DriverState)
    (t : ℚ) (q : Config) :
    (fn_status_callback env fnt st t q).1.cacheWrites = st.cacheWrites ∨
      (fn_status_callback env fnt st t q).1.cacheWrites = st.cacheWrites ++ [t] := by
  unfold fn_status_callback
  dsimp only
  repeat' split
  all_goals first | exact Or.inl rfl | exact Or.inr rfl

/-- The cache pointer always equals the most recent cache write (and is
`none` before the first): preserved by one monitor invocation. -/
theorem fsc_cacheInv (env : PlanEnv) (fnt : ℕ → Config → Status) (st : DriverState)
    (t : ℚ) (q : Config) (h : st.t_cache = st.cacheWrites.getLast?) :
    (fn_status_callback env fnt st t q).1.t_cache =
      (fn_status_callback env fnt st t q).1.cacheWrites.getLast? := by
  unfold fn_status_callback
  dsimp only
  repeat' split
  all_goals first | exact h | simp [h]

/-! ### Cumulative-time algebra of the raw path -/

theorem cumPathAux_append (a : ℚ) (l : List Waypoint) (w : Waypoint) :
    cumPathAux a (l ++ [w]) = cumPathAux a l ++ [(a + pathDuration l + w.deltaTime, w)] := by
  induction l generalizing a with
  | nil => simp [cumPathAux, pathDuration]
  | cons x xs ih =>
      simp only [List.cons_append, cumPathAux, List.append_eq, List.cons.injEq, Prod.mk.injEq,
        true_and, and_true]
      rw [ih]
      simp only [pathDuration, List.map_cons, List.sum_cons, List.append_cancel_left_eq,
        List.cons.injEq, Prod.mk.injEq, and_true]
      ring

theorem cumPathAux_map_snd (a : ℚ) (l : List Waypoint) :
    (cumPathAux a l).map Prod.snd = l := by
  induction l generalizing a with
  | nil => simp [cumPathAux]
  | cons x xs ih => simp [cumPathAux, ih]

theorem cumPath_map_snd (l : List Waypoint) : (cumPath l).map Prod.snd = l :=
  cumPathAux_map_snd 0 l

theorem cumTimes_append (l : List Waypoint) (w : Waypoint) :
    cumTimes (l ++ [w]) = cumTimes l ++ [pathDuration l + w.deltaTime] := by
  simp [cumTimes, cumPath, cumPathAux_append]

theorem pathDuration_append (l : List Waypoint) (w : Waypoint) :
    pathDuration (l ++ [w]) = pathDuration l + w.deltaTime := by
  simp [pathDuration]

theorem cumTimes_getLast (l : List Waypoint) (h : l ≠ []) :
    (cumTimes l).getLast? = some (pathDuration l) := by
  induction l using List.reverseRecOn with
  | nil => simp at h
  | append_singleton xs x _ => simp [cumTimes_append, pathDuration_append]

/-! ### Helper lemmas about the check loop and the step callback -/

/-- The check loop never touches the raw path. -/
theorem runChecks_path (env : PlanEnv) (fnt : ℕ → Config → Status) :
    ∀ (cs : List (ℚ × Config)) (st : DriverState),
      (runChecks env fnt st cs).1.path = st.path := by
  intro cs
  induction cs with
  | nil => intro st; rfl
  | cons c rest ih =>
      intro st
      unfold runChecks
      dsimp only
      cases h : (fn_status_callback env fnt st c.1 c.2).2 with
      | some f => exact fsc_path env fnt st c.1 c.2
      | none => rw [ih]; exact fsc_path env fnt st c.1 c.2

/-- The check loop never touches the pending-exception slot. -/
theorem runChecks_exception (env : PlanEnv) (fnt : ℕ → Config → Status) :
    ∀ (cs : List (ℚ × Config)) (st : DriverState),
      (runChecks env fnt st cs).1.exception = st.exception := by
  intro cs
  induction cs with
  | nil => intro st; rfl
  | cons c rest ih =>
      intro st
      unfold runChecks
      dsimp only
      cases h : (fn_status_callback env fnt st c.1 c.2).2 with
      | some f => exact fsc_exception env fnt st c.1 c.2
      | none => rw [ih]; exact fsc_exception env fnt st c.1 c.2

/-- The cache pointer equals the most recent cache write: preserved by
the check loop. -/
theorem runChecks_cacheInv (env : PlanEnv) (fnt : ℕ → Config → Status) :
    ∀ (cs : List (ℚ × Config)) (st : DriverState),
      st.t_cache = st.cacheWrites.getLast? →
      (runChecks env fnt st cs).1.t_cache = (runChecks env fnt st cs).1.cacheWrites.getLast? := by
  intro cs
  induction cs with
  | nil => intro st h; exact h
  | cons c rest ih =>
      intro st h
      unfold runChecks
      dsimp only
      cases hc : (fn_status_callback env fnt st c.1 c.2).2 with
      | some f => exact fsc_cacheInv env fnt st c.1 c.2 h
      | none => exact ih _ (fsc_cacheInv env fnt st c.1 c.2 h)

/-- The cache writes added by one check loop form a sublist of the
check times, in order. -/
theorem runChecks_cacheWrites (env : PlanEnv) (fnt : ℕ → Config → Status) :
    ∀ (cs : List (ℚ × Config)) (st : DriverState),
      ∃ l, (runChecks env fnt st cs).1.cacheWrites = st.cacheWrites ++ l ∧
        l.Sublist (cs.map Prod.fst) := by
  intro cs
  induction cs with
  | nil => intro st; exact ⟨[], by simp [runChecks]⟩
  | cons c rest ih =>
      intro st
      unfold runChecks
      dsimp only
      have hw := fsc_cacheWrites env fnt st c.1 c.2
      cases hc : (fn_status_callback env fnt st c.1 c.2).2 with
      | some f =>
          rcases hw with hw | hw
          · exact ⟨[], by simpa using hw, by simp⟩
          · exact ⟨[c.1], by simpa using hw, by simp⟩
      | none =>
          obtain ⟨l, hl, hsub⟩ :=
            ih { (fn_status_callback env fnt st c.1 c.2).1 with t_check := c.1 }
          rcases hw with hw | hw
          · refine ⟨l, ?_, hsub.cons _⟩
            rw [hl]; simpa using congrArg (fun z => z ++ l) hw
          · refine ⟨c.1 :: l, ?_, hsub.cons₂ _⟩
            rw [hl]
            have : ({ (fn_status_callback env fnt st c.1 c.2).1 with
                t_check := c.1 } : DriverState).cacheWrites = st.cacheWrites ++ [c.1] := hw
            rw [this, List.append_assoc]
            rfl

/-- When every check passes, the check loop contributes exactly one
monitor event per check sample, in order. -/
theorem runChecks_events (env : PlanEnv) (fnt : ℕ → Config → Status) :
    ∀ (cs : List (ℚ × Config)) (st : DriverState),
      (runChecks env fnt st cs).2 = none →
      (runChecks env fnt st cs).1.events =
        st.events ++ cs.map (fun c => Event.monitorAt c.1) := by
  intro cs
  induction cs with
  | nil => intro st _; simp [runChecks]
  | cons c rest ih =>
      intro st hok
      have he := fsc_events env fnt st c.1 c.2
      unfold runChecks at hok ⊢
      dsimp only at hok ⊢
      cases hc : (fn_status_callback env fnt st c.1 c.2).2 with
      | some f => rw [hc] at hok; simp at hok
      | none =>
          rw [hc] at hok
          rw [ih _ hok]
          have : ({ (fn_status_callback env fnt st c.1 c.2).1 with
              t_check := c.1 } : DriverState).events = st.events ++ [Event.monitorAt c.1] := he
          rw [this, List.append_assoc]
          rfl

/-- The step callback appends exactly one waypoint, whose delta time is
the step time minus the previous path duration. -/
theorem fcb_path (env : PlanEnv) (fnt : ℕ → Config → Status) (st : DriverState)
    (t : ℚ) (q : Config) :
    (fn_callback env fnt st t q).1.path =
      st.path ++ [⟨t - pathDuration st.path, q⟩] := by
  unfold fn_callback
  dsimp only
  split
  all_goals rw [runChecks_path]

/-- The cache pointer equals the most recent cache write: preserved by
the step callback. -/
theorem fcb_cacheInv (env : PlanEnv) (fnt : ℕ → Config → Status) (st : DriverState)
    (t : ℚ) (q : Config) (h : st.t_cache = st.cacheWrites.getLast?) :
    (fn_callback env fnt st t q).1.t_cache =
      (fn_callback env fnt st t q).1.cacheWrites.getLast? := by
  unfold fn_callback
  dsimp only
  split
  all_goals exact runChecks_cacheInv env fnt _ _ h

/-- The cache pointer equals the most recent cache write throughout the
integration loop. -/
theorem integrateSteps_cacheInv (env : PlanEnv) (fnt : ℕ → Config → Status) :
    ∀ (steps : List (ℚ × Config)) (st : DriverState),
      st.t_cache = st.cacheWrites.getLast? →
      (integrateSteps env fnt st steps).t_cache =
        (integrateSteps env fnt st steps).cacheWrites.getLast? := by
  intro steps
  induction steps with
  | nil => intro st h; exact h
  | cons s rest ih =>
      intro st h
      unfold integrateSteps
      dsimp only
      split
      · exact ih _ (fcb_cacheInv env fnt st s.1 s.2 h)
      · exact fcb_cacheInv env fnt st s.1 s.2 h

/-! ### Ordering of the discretization samples -/

/-- The number of substeps of a segment is at least one. -/
theorem segmentSteps_pos (res : List ℚ) (qA qB : Config) :
    1 ≤ segmentSteps res qA qB := by
  unfold segmentSteps
  induction ((qA.zip qB).zip res) with
  | nil => simp
  | cons x xs ih => exact le_trans ih (by simp [List.foldr_cons, le_max_left])

/-- Times of one segment's samples are strictly increasing. -/
theorem segmentChecks_chain (res : List ℚ) (tA : ℚ) (qA : Config) (tB : ℚ) (qB : Config)
    (h : tA < tB) :
    List.Chain' (· < ·) ((segmentChecks res tA qA tB qB).map Prod.fst) := by
  unfold segmentChecks
  dsimp only
  rw [List.map_map, List.chain'_map]
  cases hn : segmentSteps res qA qB with
  | zero => exact absurd (hn ▸ segmentSteps_pos res qA qB) (by omega)
  | succ m =>
      rw [List.chain'_range_succ]
      intro j _
      dsimp only [Function.comp]
      have hnq : (0 : ℚ) < ((m + 1 : ℕ) : ℚ) := by positivity
      have hd : (0 : ℚ) < tB - tA := by linarith
      exact add_lt_add_left (by
        rw [div_lt_div_iff₀ hnq hnq]
        push_cast
        nlinarith [mul_pos hd hnq]) tA

/-- Times of one segment's samples lie in the half-open interval
`(tA, tB]`. -/
theorem segmentChecks_bound (res : List ℚ) (tA : ℚ) (qA : Config) (tB : ℚ) (qB : Config)
    (h : tA < tB) :
    ∀ x ∈ (segmentChecks res tA qA tB qB).map Prod.fst, tA < x ∧ x ≤ tB := by
  unfold segmentChecks
  dsimp only
  rw [List.map_map]
  intro x hx
  rw [List.mem_map] at hx
  obtain ⟨j, hj, rfl⟩ := hx
  rw [List.mem_range] at hj
  dsimp only [Function.comp]
  have hn : (0 : ℚ) < ((segmentSteps res qA qB : ℕ) : ℚ) := by
    have := segmentSteps_pos res qA qB
    exact_mod_cast Nat.lt_of_lt_of_le Nat.zero_lt_one this
  have hd : (0 : ℚ) < tB - tA := by linarith
  constructor
  · have hpos : 0 < (tB - tA) * ((j : ℚ) + 1) / ((segmentSteps res qA qB : ℕ) : ℚ) := by
      apply div_pos (by positivity) hn
    linarith
  · have hle : ((j : ℚ) + 1) ≤ ((segmentSteps res qA qB : ℕ) : ℚ) := by
      have : (j + 1 : ℕ) ≤ segmentSteps res qA qB := hj
      exact_mod_cast this
    have : (tB - tA) * ((j : ℚ) + 1) / ((segmentSteps res qA qB : ℕ) : ℚ) ≤ tB - tA := by
      rw [div_le_iff₀ hn]
      nlinarith
    linarith

/-- Times of the whole-path samples after `(tA, qA)` are strictly
increasing and all exceed `tA`, provided cumulative times ascend. -/
theorem pathChecksAux_chain (res : List ℚ) :
    ∀ (ws : List Waypoint) (tA : ℚ) (qA : Config),
      List.Chain (· < ·) tA ((cumPathAux tA ws).map Prod.fst) →
      List.Chain' (· < ·) ((pathChecksAux res tA qA ws).map Prod.fst) ∧
        ∀ x ∈ (pathChecksAux res tA qA ws).map Prod.fst, tA < x := by
  intro ws
  induction ws with
  | nil => intro tA qA _; simp [pathChecksAux]
  | cons w rest ih =>
      intro tA qA hchain
      rw [cumPathAux, List.map_cons, List.chain_cons] at hchain
      obtain ⟨hAB, hchain⟩ := hchain
      dsimp only at hAB hchain
      obtain ⟨ihc, ihb⟩ := ih (tA + w.deltaTime) w.q hchain
      have hseg := segmentChecks_chain res tA qA (tA + w.deltaTime) w.q hAB
      have hsegb := segmentChecks_bound res tA qA (tA + w.deltaTime) w.q hAB
      constructor
      · rw [pathChecksAux, List.map_append]
        rw [List.chain'_append]
        refine ⟨hseg, ihc, ?_⟩
        intro x hx y hy
        have hxm : x ∈ (segmentChecks res tA qA (tA + w.deltaTime) w.q).map Prod.fst :=
          List.mem_of_mem_getLast? hx
        have hym : y ∈ (pathChecksAux res (tA + w.deltaTime) w.q rest).map Prod.fst :=
          List.mem_of_mem_head? hy
        have h1 := (hsegb x hxm).2
        have h2 := ihb y hym
        linarith
      · rw [pathChecksAux, List.map_append]
        intro x hx
        rcases List.mem_append.mp hx with hx | hx
        · exact (hsegb x hx).1
        · have := ihb x hx
          linarith

/-- Times of the collision-check samples of a path with ascending
cumulative times are strictly increasing. -/
theorem GetCollisionCheckPts_chain (env : PlanEnv) (p : List Waypoint)
    (h : List.Chain' (· < ·) (cumTimes p)) :
    List.Chain' (· < ·) ((GetCollisionCheckPts env p).map Prod.fst) := by
  cases p with
  | nil => simp [GetCollisionCheckPts]
  | cons w0 ws =>
      unfold GetCollisionCheckPts
      have heq : cumTimes (w0 :: ws) =
          w0.deltaTime :: (cumPathAux w0.deltaTime ws).map Prod.fst := by
        simp [cumTimes, cumPath, cumPathAux]
      rw [heq] at h
      exact (pathChecksAux_chain env.dofResolution ws w0.deltaTime w0.q h).1

/-- Appending an accepted step at time `t` to the raw path appends `t`
to the cumulative times. -/
theorem cumTimes_append_step (p : List Waypoint) (t : ℚ) (q : Config) :
    cumTimes (p ++ [⟨t - pathDuration p, q⟩]) = cumTimes p ++ [t] := by
  rw [cumTimes_append]
  congr 1
  simp

/-- Cumulative raw-path times stay strictly increasing throughout the
integration loop, provided the accepted step times keep ascending past
the current path duration. -/
theorem integrateSteps_chain (env : PlanEnv) (fnt : ℕ → Config → Status) :
    ∀ (steps : List (ℚ × Config)) (st : DriverState),
      List.Chain' (· < ·) (cumTimes st.path) →
      (st.path = [] → List.Chain' (· < ·) (steps.map Prod.fst)) →
      (st.path ≠ [] → List.Chain (· < ·) (pathDuration st.path) (steps.map Prod.fst)) →
      List.Chain' (· < ·) (cumTimes (integrateSteps env fnt st steps).path) := by
  intro steps
  induction steps with
  | nil => intro st h _ _; exact h
  | cons s rest ih =>
      intro st h hnil hcons
      have hpath := fcb_path env fnt st s.1 s.2
      have hnew : cumTimes (fn_callback env fnt st s.1 s.2).1.path = cumTimes st.path ++ [s.1] := by
        rw [hpath, cumTimes_append_step]
      have hchain : List.Chain' (· < ·) (cumTimes (fn_callback env fnt st s.1 s.2).1.path) := by
        rw [hnew, List.chain'_append]
        refine ⟨h, List.chain'_singleton _, ?_⟩
        intro x hx y hy
        simp only [List.head?_cons, Option.mem_def, Option.some.injEq] at hy
        subst hy
        by_cases hp : st.path = []
        · rw [hp] at hx; simp [cumTimes, cumPath, cumPathAux] at hx
        · rw [cumTimes_getLast st.path hp] at hx
          simp only [Option.mem_def, Option.some.injEq] at hx
          subst hx
          exact (List.chain_cons.mp (by simpa using hcons hp)).1
      have hne : (fn_callback env fnt st s.1 s.2).1.path ≠ [] := by
        rw [hpath]; simp
      have hdur : pathDuration (fn_callback env fnt st s.1 s.2).1.path = s.1 := by
        rw [hpath, pathDuration_append]; simp
      unfold integrateSteps
      dsimp only
      split
      · refine ih _ hchain (fun hc => absurd hc hne) (fun _ => ?_)
        rw [hdur]
        by_cases hp : st.path = []
        · have hc := hnil hp
          rw [List.map_cons] at hc
          exact hc
        · have := hcons hp
          exact (List.chain_cons.mp this).2
      · exact hchain

/-! ### Generic lemmas about take, takeWhile and filter -/

/-- Taking up to the first index satisfying `p` is taking while `p`
fails. -/
theorem take_findIdx_eq_takeWhile {α : Type} (p : α → Bool) :
    ∀ l : List α, l.take (l.findIdx p) = l.takeWhile (fun x => !(p x)) := by
  intro l
  induction l with
  | nil => rfl
  | cons x xs ih =>
      by_cases hx : p x
      · simp [List.findIdx_cons, List.takeWhile_cons, hx]
      · simp only [List.findIdx_cons, List.takeWhile_cons, Bool.not_eq_true'] at *
        simp [hx, ih]

/-- On a list whose `ℚ` keys are strictly increasing, filtering the
keys below a threshold is the same as taking while below it. -/
theorem filter_eq_takeWhile_of_pairwise {α : Type} (f : α → ℚ) (t : ℚ) :
    ∀ l : List α, l.Pairwise (fun a b => f a < f b) →
      l.filter (fun x => decide (f x < t)) = l.takeWhile (fun x => decide (f x < t)) := by
  intro l
  induction l with
  | nil => intro _; rfl
  | cons x xs ih =>
      intro hp
      rw [List.pairwise_cons] at hp
      obtain ⟨hx, hp⟩ := hp
      by_cases hxt : f x < t
      · simp [List.filter_cons, List.takeWhile_cons, hxt, ih hp]
      · simp only [List.filter_cons, List.takeWhile_cons]
        rw [if_neg (by simpa using hxt), if_neg (by simpa using hxt)]
        rw [List.filter_eq_nil_iff]
        intro a ha
        simp only [decide_eq_true_eq]
        intro hc
        exact hxt (lt_trans (hx a ha) hc)

/-- `List.findIdx` over a mapped list is `findIdx` of the composite. -/
theorem findIdx_map_eq {α β : Type} (p : β → Bool) (f : α → β) :
    ∀ l : List α, List.findIdx p (l.map f) = List.findIdx (fun x => p (f x)) l := by
  intro l
  induction l with
  | nil => rfl
  | cons x xs ih => simp [List.findIdx_cons, ih]

/-- Evaluating the constraint monitor on a sample that passes every
check but draws a plain `TERMINATE` from the predicate: the raised
fault is `TerminationError`, and the cache pointer is untouched. -/
theorem fsc_terminate (env : PlanEnv) (fnt : ℕ → Config → Status) (st : DriverState)
    (t : ℚ) (q : Config)
    (h1 : env.timelimitHit st.callCount = false)
    (h2 : firstIdxLt q env.qLimitMin = none)
    (h3 : firstIdxGt q env.qLimitMax = none)
    (h4 : env.envCollision q = false)
    (h5 : env.selfCollision q = false)
    (h6 : fnt st.callCount q = .TERMINATE) :
    (fn_status_callback env fnt st t q).2 = some .TerminationError ∧
    (fn_status_callback env fnt st t q).1.t_cache = st.t_cache := by
  unfold fn_status_callback
  dsimp only
  rw [h1, h2, h3]
  dsimp only
  rw [h4, h5, h6]
  exact ⟨rfl, rfl⟩

/-- Evaluating the check loop on a single sample that raises a fault. -/
theorem runChecks_single_fault (env : PlanEnv) (fnt : ℕ → Config → Status)
    (st : DriverState) (t : ℚ) (q : Config) (f : Fault)
    (h : (fn_status_callback env fnt st t q).2 = some f) :
    runChecks env fnt st [(t, q)] = ((fn_status_callback env fnt st t q).1, some f) := by
  unfold runChecks
  dsimp only
  rw [h]

/-- Evaluating the step callback on the very first accepted sample
(empty raw path), when the constraint monitor raises a fault: the
callback records the fault as the pending exception and returns `-1`. -/
theorem fcb_single_fault (env : PlanEnv) (fnt : ℕ → Config → Status)
    (st : DriverState) (t : ℚ) (q : Config) (f : Fault)
    (hp : st.path = [])
    (hf : (fn_status_callback env fnt
        { st with path := st.path ++ [⟨t - pathDuration st.path, q⟩]
                  events := st.events ++ [Event.appendWp t] } t q).2 = some f) :
    fn_callback env fnt st t q =
      ({ (fn_status_callback env fnt
          { st with path := st.path ++ [⟨t - pathDuration st.path, q⟩]
                    events := st.events ++ [Event.appendWp t] } t q).1
          with exception := some f }, -1) := by
  unfold fn_callback
  dsimp only
  rw [if_pos (by simp [hp])]
  rw [runChecks_single_fault env fnt _ t q f hf]

/-! ### Claim theorems -/

/-- C1.  Partial-success precedence and no-progress failure: if the
termination predicate signalled a caching status at least once (the
run's cache-write trace is non-empty), `FollowVectorField` returns a
trajectory successfully — the pending Fault, if any, is only logged,
never raised; if no caching status was ever signalled, the call raises
the pending Fault, or the generic
`PlanningError('An unknown error has occurred.')` when none was
recorded, and returns no trajectory.  (`fn_status_callback` records a
cache write exactly when `Status.DoesCache` holds of the predicate's
status, so a non-empty `cacheWrites` trace is precisely "a caching
status was signalled at least once".) -/
theorem C1_partial_success_precedence (env : PlanEnv) (fnt : ℕ → Config → Status)
    (q0 : Config) (steps : List (ℚ × Config)) (m : ℚ) :
    ((integrateSteps env fnt (initState q0) steps).cacheWrites ≠ [] →
      isOk (FollowVectorField env fnt q0 steps m) = true) ∧
    ((integrateSteps env fnt (initState q0) steps).cacheWrites = [] →
      FollowVectorField env fnt q0 steps m =
        .error ((integrateSteps env fnt (initState q0) steps).exception.getD
          .UnknownPlanningError)) := by
  have hinv := integrateSteps_cacheInv env fnt steps (initState q0) rfl
  constructor
  · intro hne
    unfold FollowVectorField
    dsimp only
    rw [hinv]
    cases hlast : (integrateSteps env fnt (initState q0) steps).cacheWrites.getLast? with
    | none => exact absurd (List.getLast?_eq_none_iff.mp hlast) hne
    | some tc => rfl
  · intro hemp
    unfold FollowVectorField
    dsimp only
    rw [hinv, hemp]
    rfl

/-- Witness for C1 on the concrete example run: the predicate cached,
and the call returns a trajectory. -/
theorem C1_partial_success_precedence_witness :
    isOk (FollowVectorField exEnv exPred [0] exSteps 1) = true :=
  (C1_partial_success_precedence exEnv exPred [0] exSteps 1).1 (by with_unfolding_all decide)

/-- C5.  Cache-before-terminate ordering on one sample: when the
termination predicate returns `CACHE_AND_TERMINATE` on a monitored
sample `(t, q)` (that passes the wall-clock, limit, and collision
checks), the monitor records `t` as the cache pointer *and* raises
`TerminationError` from the same invocation; and whenever the step
callback reports a nonzero status, the integration loop processes no
further accepted steps. -/
theorem C5_cache_before_terminate (env : PlanEnv) (fnt : ℕ → Config → Status)
    (st : DriverState) (t : ℚ) (q : Config)
    (h1 : env.timelimitHit st.callCount = false)
    (h2 : firstIdxLt q env.qLimitMin = none)
    (h3 : firstIdxGt q env.qLimitMax = none)
    (h4 : env.envCollision q = false)
    (h5 : env.selfCollision q = false)
    (h6 : fnt st.callCount q = .CACHE_AND_TERMINATE) :
    ((fn_status_callback env fnt st t q).1.t_cache = some t ∧
      (fn_status_callback env fnt st t q).2 = some .TerminationError) ∧
    (∀ (st' : DriverState) (s : ℚ × Config) (rest : List (ℚ × Config)),
      (fn_callback env fnt st' s.1 s.2).2 ≠ 0 →
      integrateSteps env fnt st' (s :: rest) = (fn_callback env fnt st' s.1 s.2).1) := by
  constructor
  · unfold fn_status_callback
    dsimp only
    rw [h1, h2, h3]
    dsimp only
    rw [h4, h5, h6]
    exact ⟨rfl, rfl⟩
  · intro st' s rest hr
    unfold integrateSteps
    dsimp only
    rw [if_neg hr]

/-- Witness for C5 at a concrete sample. -/
theorem C5_cache_before_terminate_witness :
    (fn_status_callback exEnv cacheTermPred (initState [0]) 3 [0]).1.t_cache = some 3 ∧
      (fn_status_callback exEnv cacheTermPred (initState [0]) 3 [0]).2 =
        some .TerminationError :=
  (C5_cache_before_terminate exEnv cacheTermPred (initState [0]) 3 [0]
    rfl (by with_unfolding_all decide) (by with_unfolding_all decide) rfl rfl rfl).1

/-- C10.  User-requested termination without a cached prefix: when the
termination predicate always answers `TERMINATE` (never a caching
status) and the initial sample passes the wall-clock, limit, and
collision checks, `FollowVectorField` raises precisely
`TerminationError` ('Terminated by callback.') — not a success and not
the generic integrator failure. -/
theorem C10_terminate_without_cache_raises (env : PlanEnv) (fnt : ℕ → Config → Status)
    (q0 : Config) (rest : List (ℚ × Config)) (m : ℚ)
    (hfnt : ∀ k q, fnt k q = Status.TERMINATE)
    (h1 : env.timelimitHit 0 = false)
    (h2 : firstIdxLt q0 env.qLimitMin = none)
    (h3 : firstIdxGt q0 env.qLimitMax = none)
    (h4 : env.envCollision q0 = false)
    (h5 : env.selfCollision q0 = false) :
    FollowVectorField env fnt q0 ((0, q0) :: rest) m = .error Fault.TerminationError := by
  have hsc : (fn_status_callback env fnt
      { initState q0 with
          path := (initState q0).path ++ [⟨0 - pathDuration (initState q0).path, q0⟩]
          events := (initState q0).events ++ [Event.appendWp 0] } 0 q0).2 =
        some Fault.TerminationError ∧
      (fn_status_callback env fnt
      { initState q0 with
          path := (initState q0).path ++ [⟨0 - pathDuration (initState q0).path, q0⟩]
          events := (initState q0).events ++ [Event.appendWp 0] } 0 q0).1.t_cache = none :=
    ⟨(fsc_terminate env fnt _ 0 q0 h1 h2 h3 h4 h5 (hfnt 0 q0)).1,
     (fsc_terminate env fnt _ 0 q0 h1 h2 h3 h4 h5 (hfnt 0 q0)).2⟩
  have hcb := fcb_single_fault env fnt (initState q0) 0 q0 Fault.TerminationError rfl hsc.1
  unfold FollowVectorField
  dsimp only
  unfold integrateSteps
  dsimp only
  rw [hcb]
  dsimp only
  rw [if_neg (show ¬((-1 : Int) = 0) by decide)]
  dsimp only
  rw [hsc.2]
  rfl

/-- Witness for C10 on a concrete run. -/
theorem C10_terminate_without_cache_raises_witness :
    FollowVectorField exEnv termPred [0] exSteps 1 = .error Fault.TerminationError :=
  C10_terminate_without_cache_raises exEnv termPred [0] [(1, [1]), (2, [2])] 1
    (fun _ _ => rfl) rfl (by with_unfolding_all decide) (by with_unfolding_all decide) rfl rfl

/-- C9, counterexample.  The claim states that every trajectory-level
operation, including deferred execution, returns a trajectory or raises
a Fault, with no silent `None` result.  But `ExecuteTrajectory` with
`defer=True` and a finite timeout resolves its future to `None` when
the controllers are not done within the timeout window (as its own
docstring documents), with no exception: the claim is false on this
input. -/
theorem C9_no_silent_none_counterexample :
    ExecuteTrajectory exTraj true (some 5) neverDone = none := rfl

/-- C9, amended.  `ExecuteTrajectory` returns the executed trajectory
on every synchronous call, and on every deferred call with
`timeout=None` (the default); only a deferred call with a finite
timeout may resolve to `None` once the timeout elapses — a documented
legacy behavior. -/
theorem C9_execute_trajectory_amended (traj : Traj) (defer : Bool)
    (timeoutTicks : Option ℕ) (isDone : ℕ → Bool)
    (h : timeoutTicks = none ∨ defer = false) :
    ExecuteTrajectory traj defer timeoutTicks isDone = some traj := by
  rcases h with h | h
  · subst h; unfold ExecuteTrajectory; split <;> rfl
  · subst h; rfl

/-- Witness for the amended C9. -/
theorem C9_execute_trajectory_amended_witness :
    ExecuteTrajectory exTraj true none neverDone = some exTraj :=
  C9_execute_trajectory_amended exTraj true none neverDone (Or.inl rfl)

/-- C3, counterexample.  The claim says the raised
`PositionLimitViolation` identifies the *first offending DOF in index
order*.  On the 2-DOF sample `q = [2, -1]` with limits `[0,0]..[1,1]`,
DOF 0 violates its upper limit and DOF 1 its lower limit; the first
offending DOF in index order is 0, but the code checks *all* lower
limits before *any* upper limit and reports DOF 1.  (The configuration
is still never committed, even though both collision oracles of
`exEnv2` report hits.) -/
theorem C3_first_offending_dof_counterexample :
    reportedDof (fn_status_callback exEnv2 contPred (initState [0, 0]) 0 [2, -1]).2 = some 1 ∧
    specFirstOffendingDOF [2, -1] [0, 0] [1, 1] = some 0 ∧
    reportedDof (fn_status_callback exEnv2 contPred (initState [0, 0]) 0 [2, -1]).2 ≠
      specFirstOffendingDOF [2, -1] [0, 0] [1, 1] ∧
    (fn_status_callback exEnv2 contPred (initState [0, 0]) 0 [2, -1]).1.robotConfig = [0, 0] := by
  refine ⟨?_, ?_, ?_, ?_⟩ <;> with_unfolding_all decide

/-- C3, amended.  For every monitored sample violating a position
limit, a `JointLimitError` is raised identifying the first DOF in index
order that violates its *lower* limit if any exists, and otherwise the
first DOF in index order that violates its *upper* limit, together with
its value and the violated bound; the fault is raised before the
configuration is committed (the robot's configuration is unchanged),
and — since `env` here quantifies over arbitrary collision oracles —
no collision fault is ever raised for such a sample. -/
theorem C3_limit_fault_priority_amended (env : PlanEnv) (fnt : ℕ → Config → Status)
    (st : DriverState) (t : ℚ) (q : Config)
    (hT : env.timelimitHit st.callCount = false) :
    (∀ i, firstIdxLt q env.qLimitMin = some i →
      (fn_status_callback env fnt st t q).2 =
        some (.JointLimitError (env.activeIndices.getD i 0) (q.getD i 0)
          (env.qLimitMin.getD i 0) true) ∧
      (fn_status_callback env fnt st t q).1.robotConfig = st.robotConfig) ∧
    (∀ i, firstIdxLt q env.qLimitMin = none → firstIdxGt q env.qLimitMax = some i →
      (fn_status_callback env fnt st t q).2 =
        some (.JointLimitError (env.activeIndices.getD i 0) (q.getD i 0)
          (env.qLimitMax.getD i 0) false) ∧
      (fn_status_callback env fnt st t q).1.robotConfig = st.robotConfig) := by
  constructor
  · intro i hi
    unfold fn_status_callback
    dsimp only
    rw [hT, hi]
    exact ⟨rfl, rfl⟩
  · intro i hlo hi
    unfold fn_status_callback
    dsimp only
    rw [hT, hlo, hi]
    exact ⟨rfl, rfl⟩

/-- Witness for the amended C3 at the concrete offending sample. -/
theorem C3_limit_fault_priority_amended_witness :
    (fn_status_callback exEnv2 contPred (initState [0, 0]) 0 [2, -1]).2 =
      some (.JointLimitError 1 (-1) 0 true) ∧
    (fn_status_callback exEnv2 contPred (initState [0, 0]) 0 [2, -1]).1.robotConfig =
      (initState [0, 0]).robotConfig :=
  (C3_limit_fault_priority_amended exEnv2 contPred (initState [0, 0]) 0 [2, -1] rfl).1
    1 (by with_unfolding_all decide)

/-- C6, counterexample.  The claim says cache-pointer values observed
over a single call are non-decreasing for *any* termination predicate.
With DOF resolution `1/2` and a (stateful) predicate that caches on its
third and fourth invocations, the second accepted step caches at time
`1`, and the third accepted step — whose checks re-run over the whole
path from its start — caches at time `1/2` again: the observed
cache-pointer sequence is `[1, 1/2]`, which decreases. -/
theorem C6_monotonic_caching_counterexample :
    (integrateSteps exEnvHalf exPredLate (initState [0]) exSteps).cacheWrites = [1, 1/2] ∧
    ¬ List.Chain' (· ≤ ·)
        (integrateSteps exEnvHalf exPredLate (initState [0]) exSteps).cacheWrites := by
  have h : (integrateSteps exEnvHalf exPredLate (initState [0]) exSteps).cacheWrites
      = [1, 1/2] := by with_unfolding_all decide
  refine ⟨h, ?_⟩
  rw [h]
  intro hc
  have := List.chain'_cons.mp hc
  have h12 : ¬ ((1 : ℚ) ≤ 1/2) := by with_unfolding_all decide
  exact h12 this.1

/-- C6, amended.  The cache pointer is `None` until the termination
predicate first signals caching and always equals the most recent cache
write; and within a single pass of the check loop over samples with
strictly increasing times the observed cache-pointer values are
non-decreasing — but across accepted steps they may decrease, because
each step re-runs the checks over the whole path from its start.  The
check lists themselves are in strictly increasing time order whenever
the path's cumulative times are. -/
theorem C6_caching_amended :
    (∀ (env : PlanEnv) (fnt : ℕ → Config → Status) (q0 : Config)
        (steps : List (ℚ × Config)),
      (integrateSteps env fnt (initState q0) steps).t_cache =
        (integrateSteps env fnt (initState q0) steps).cacheWrites.getLast?) ∧
    (∀ (env : PlanEnv) (fnt : ℕ → Config → Status) (st : DriverState)
        (cs : List (ℚ × Config)),
      List.Chain' (· < ·) (cs.map Prod.fst) →
      ((runChecks env fnt st cs).1.cacheWrites).take st.cacheWrites.length =
        st.cacheWrites ∧
      List.Chain' (· ≤ ·)
        (((runChecks env fnt st cs).1.cacheWrites).drop st.cacheWrites.length)) ∧
    (∀ (env : PlanEnv) (p : List Waypoint),
      List.Chain' (· < ·) (cumTimes p) →
      List.Chain' (· < ·) ((GetCollisionCheckPts env p).map Prod.fst)) := by
  refine ⟨?_, ?_, ?_⟩
  · intro env fnt q0 steps
    exact integrateSteps_cacheInv env fnt steps (initState q0) rfl
  · intro env fnt st cs hcs
    obtain ⟨l, hl, hsub⟩ := runChecks_cacheWrites env fnt cs st
    rw [hl]
    constructor
    · exact List.take_left st.cacheWrites l
    · rw [List.drop_left]
      have hpw : (cs.map Prod.fst).Pairwise (· < ·) := List.chain'_iff_pairwise.mp hcs
      have hpl : l.Pairwise (· < ·) := hpw.sublist hsub
      exact List.chain'_iff_pairwise.mpr (hpl.imp le_of_lt)
  · intro env p hp
    exact GetCollisionCheckPts_chain env p hp

/-- Witness for the amended C6 on a concrete check pass. -/
theorem C6_caching_amended_witness :
    ((runChecks exEnvHalf exPredLate (initState [0])
        [((0 : ℚ), ([0] : Config))]).1.cacheWrites).take
      (initState [0]).cacheWrites.length = (initState [0]).cacheWrites ∧
    List.Chain' (· ≤ ·)
      (((runChecks exEnvHalf exPredLate (initState [0])
        [((0 : ℚ), ([0] : Config))]).1.cacheWrites).drop
        (initState [0]).cacheWrites.length) :=
  C6_caching_amended.2.1 exEnvHalf exPredLate (initState [0]) [(0, [0])] (by simp)

/-- C7, counterexample.  The claim says the raw-path waypoints before
`t_cache` are copied *with their original timing deltas*.  But the
output configuration specification is
`GetActiveConfigurationSpecification('linear')` with no delta-time
group — the code comment itself says the copy "strips the (potentially
infeasible) timing information".  On the example run the raw path has
deltas `[0, 1, 1]`, and the output trajectory carries no delta times at
all. -/
theorem C7_timing_preserved_counterexample :
    FollowVectorField exEnv exPred [0] exSteps 1 = .ok exTraj ∧
    exTraj.hasDeltaTime = false ∧
    (integrateSteps exEnv exPred (initState [0]) exSteps).path.map Waypoint.deltaTime
      = [0, 1, 1] := by
    refine ⟨by with_unfolding_all rfl, rfl, by with_unfolding_all decide⟩

/-- C7, amended.  The raw-path waypoints with cumulative time before
`t_cache` are copied into the output in their original order (the
output minus its final synthesized sample is the image of a prefix of
the raw path), but their timing deltas are stripped: the output
trajectory is untimed. -/
theorem C7_truncation_order_amended (env : PlanEnv) (fnt : ℕ → Config → Status)
    (q0 : Config) (steps : List (ℚ × Config)) (m : ℚ) (tc : ℚ) (tr : Traj)
    (hc : (integrateSteps env fnt (initState q0) steps).t_cache = some tc)
    (hok : FollowVectorField env fnt q0 steps m = .ok tr) :
    tr.hasDeltaTime = false ∧
    tr.waypoints.dropLast =
      ((integrateSteps env fnt (initState q0) steps).path.take
        (GetFirstWaypointIndexAfterTime
          (integrateSteps env fnt (initState q0) steps).path tc)).map Waypoint.q ∧
    tr.waypoints ≠ [] := by
  unfold FollowVectorField at hok
  dsimp only at hok
  rw [hc] at hok
  simp only [Except.ok.injEq] at hok
  subst hok
  refine ⟨rfl, ?_, by simp⟩
  exact List.dropLast_concat ..

/-- Witness for the amended C7 on the example run. -/
theorem C7_truncation_order_amended_witness :
    exTraj.hasDeltaTime = false ∧
    exTraj.waypoints.dropLast =
      ((integrateSteps exEnv exPred (initState [0]) exSteps).path.take
        (GetFirstWaypointIndexAfterTime
          (integrateSteps exEnv exPred (initState [0]) exSteps).path 2)).map Waypoint.q ∧
    exTraj.waypoints ≠ [] :=
  C7_truncation_order_amended exEnv exPred [0] exSteps 1 2 exTraj
    (by with_unfolding_all decide) (by with_unfolding_all rfl)

/-- C8, counterexample.  The claim says the output carries boolean tag
values `Constrained=true`, `Smooth=true`.  The code writes the *string*
`'true'` for both (`vectorfield.py` lines 406-412), not a boolean: on
the example run the constrained tag is `TagValue.str "true"`, not
`TagValue.bool true`. -/
theorem C8_boolean_tags_counterexample :
    FollowVectorField exEnv exPred [0] exSteps 1 = .ok exTraj ∧
    getTag exTraj "constrained" = some (TagValue.str "true") ∧
    getTag exTraj "constrained" ≠ some (TagValue.bool true) ∧
    getTag exTraj "smooth" ≠ some (TagValue.bool true) := by
  refine ⟨by with_unfolding_all rfl, ?_, ?_, ?_⟩ <;> with_unfolding_all decide

/-- C8, amended.  Every trajectory returned by `FollowVectorField`
carries the tags `constrained` and `smooth` with the *string* value
`"true"`; the `PlanToEndEffectorPose` caller then overrides the
constrained tag with the *boolean* value `False` (leaving `smooth`
untouched). -/
theorem C8_tags_amended (env : PlanEnv) (fnt : ℕ → Config → Status)
    (q0 : Config) (steps : List (ℚ × Config)) (m : ℚ) (tr : Traj)
    (hok : FollowVectorField env fnt q0 steps m = .ok tr) :
    getTag tr "constrained" = some (.str "true") ∧
    getTag tr "smooth" = some (.str "true") ∧
    getTag (planToEndEffectorPoseTagOverride tr) "constrained" = some (.bool false) ∧
    getTag (planToEndEffectorPoseTagOverride tr) "smooth" = some (.str "true") := by
  unfold FollowVectorField at hok
  dsimp only at hok
  cases hcache : (integrateSteps env fnt (initState q0) steps).t_cache with
  | none => rw [hcache] at hok; simp at hok
  | some tc =>
      rw [hcache] at hok
      simp only [Except.ok.injEq] at hok
      subst hok
      refine ⟨?_, ?_, ?_, ?_⟩ <;> rfl

/-- Witness for the amended C8 on the example run. -/
theorem C8_tags_amended_witness :
    getTag exTraj "constrained" = some (TagValue.str "true") ∧
    getTag exTraj "smooth" = some (TagValue.str "true") ∧
    getTag (planToEndEffectorPoseTagOverride exTraj) "constrained" =
      some (TagValue.bool false) ∧
    getTag (planToEndEffectorPoseTagOverride exTraj) "smooth" =
      some (TagValue.str "true") :=
  C8_tags_amended exEnv exPred [0] exSteps 1 exTraj (by with_unfolding_all rfl)

/-- Complementing the two decidable comparisons: "not (tc ≤ x)" is
"x < tc" at the `Bool` level. -/
theorem not_decide_le (tc x : ℚ) : (!(decide (tc ≤ x))) = decide (x < tc) := by
  by_cases hx : x < tc
  · simp [hx, not_le.mpr hx]
  · simp [hx, not_lt.mp hx]

/-- On a cumulative-time-sorted zipped path, taking up to the first
index whose key reaches `tc` is filtering the keys strictly below
`tc`. -/
theorem take_findIdx_filter (l : List (ℚ × Waypoint)) (tc : ℚ)
    (hpw : l.Pairwise (fun a b => a.1 < b.1)) :
    (l.map Prod.snd).take (List.findIdx (fun c => decide (tc ≤ c)) (l.map Prod.fst)) =
      (l.filter (fun c => decide (c.1 < tc))).map Prod.snd := by
  rw [findIdx_map_eq, ← List.map_take, take_findIdx_eq_takeWhile]
  have hfun : (fun (x : ℚ × Waypoint) => !decide (tc ≤ x.1)) =
      (fun x => decide (x.1 < tc)) :=
    funext fun x => not_decide_le tc x.1
  rw [hfun, filter_eq_takeWhile_of_pairwise Prod.fst tc l hpw]

/-- C2.  Truncation correctness: when the accepted step times strictly
increase and the run ends with cache pointer `tc`, the returned
trajectory consists, in order, of exactly the raw-path waypoints whose
cumulative time is strictly below `tc`, followed by exactly one final
waypoint re-sampled from the recorded path at time `tc` (exact in this
rational model); and the source times of those waypoints — the
cumulative times of the copied prefix followed by `tc` — are strictly
increasing, so no waypoint at or after `tc` other than the final one
appears. -/
theorem C2_truncation_correctness (env : PlanEnv) (fnt : ℕ → Config → Status)
    (q0 : Config) (steps : List (ℚ × Config)) (m : ℚ) (tc : ℚ) (tr : Traj)
    (hs : List.Chain' (· < ·) (steps.map Prod.fst))
    (hc : (integrateSteps env fnt (initState q0) steps).t_cache = some tc)
    (hok : FollowVectorField env fnt q0 steps m = .ok tr) :
    tr.waypoints =
      (((cumPath (integrateSteps env fnt (initState q0) steps).path).filter
          (fun c => decide (c.1 < tc))).map (fun c => c.2.q))
        ++ [samplePath (integrateSteps env fnt (initState q0) steps).path tc] ∧
    List.Chain' (· < ·)
      ((((cumPath (integrateSteps env fnt (initState q0) steps).path).filter
          (fun c => decide (c.1 < tc))).map Prod.fst) ++ [tc]) := by
  have hchain : List.Chain' (· < ·)
      (cumTimes (integrateSteps env fnt (initState q0) steps).path) := by
    apply integrateSteps_chain env fnt steps (initState q0)
    · exact List.chain'_nil
    · intro _; exact hs
    · intro hne; exact absurd rfl hne
  have hpw : (cumPath (integrateSteps env fnt (initState q0) steps).path).Pairwise
      (fun a b => a.1 < b.1) := by
    have h := List.chain'_iff_pairwise.mp hchain
    rwa [cumTimes, List.pairwise_map] at h
  unfold FollowVectorField at hok
  dsimp only at hok
  rw [hc] at hok
  simp only [Except.ok.injEq] at hok
  subst hok
  constructor
  · dsimp only
    congr 1
    have key := take_findIdx_filter
      (cumPath (integrateSteps env fnt (initState q0) steps).path) tc hpw
    rw [cumPath_map_snd] at key
    rw [show GetFirstWaypointIndexAfterTime
        (integrateSteps env fnt (initState q0) steps).path tc =
        List.findIdx (fun c => decide (tc ≤ c))
          ((cumPath (integrateSteps env fnt (initState q0) steps).path).map Prod.fst)
      from rfl]
    rw [key, List.map_map]
    rfl
  · rw [List.chain'_append]
    refine ⟨?_, List.chain'_singleton tc, ?_⟩
    · apply List.chain'_iff_pairwise.mpr
      have hsub : ((cumPath (integrateSteps env fnt (initState q0) steps).path).filter
          (fun c => decide (c.1 < tc))).map Prod.fst |>.Sublist
          ((cumPath (integrateSteps env fnt (initState q0) steps).path).map Prod.fst) :=
        (List.filter_sublist _).map Prod.fst
      exact (List.chain'_iff_pairwise.mp hchain).sublist hsub
    · intro x hx y hy
      simp only [List.head?_cons, Option.mem_def, Option.some.injEq] at hy
      subst hy
      have hxm := List.mem_of_mem_getLast? hx
      rw [List.mem_map] at hxm
      obtain ⟨c, hcmem, rfl⟩ := hxm
      have := List.of_mem_filter hcmem
      simpa using this

/-- Witness for C2 on the example run. -/
theorem C2_truncation_correctness_witness :
    exTraj.waypoints =
      (((cumPath (integrateSteps exEnv exPred (initState [0]) exSteps).path).filter
          (fun c => decide (c.1 < 2))).map (fun c => c.2.q))
        ++ [samplePath (integrateSteps exEnv exPred (initState [0]) exSteps).path 2] ∧
    List.Chain' (· < ·)
      ((((cumPath (integrateSteps exEnv exPred (initState [0]) exSteps).path).filter
          (fun c => decide (c.1 < 2))).map Prod.fst) ++ [(2 : ℚ)]) :=
  C2_truncation_correctness exEnv exPred [0] exSteps 1 2 exTraj
    (List.chain'_cons.mpr ⟨by decide, List.chain'_cons.mpr
      ⟨by decide, List.chain'_singleton _⟩⟩)
    (by with_unfolding_all decide) (by with_unfolding_all rfl)

/-- Pointwise value of a linear interpolation between configurations. -/
theorem lerp_getD : ∀ (qA qB : Config) (s : ℚ) (i : ℕ), i < qA.length → i < qB.length →
    (lerpConfig qA qB s).getD i 0 = qA.getD i 0 + s * (qB.getD i 0 - qA.getD i 0) := by
  intro qA
  induction qA with
  | nil => intro qB s i hiA _; simp at hiA
  | cons a as ih =>
      intro qB s i hiA hiB
      cases qB with
      | nil => simp at hiB
      | cons b bs =>
          cases i with
          | zero => simp [lerpConfig]
          | succ i =>
              have h1 : i < as.length := by simpa using hiA
              have h2 : i < bs.length := by simpa using hiB
              simpa only [lerpConfig, List.zip_cons_cons, List.map_cons,
                List.getD_cons_succ] using ih bs s i h1 h2

/-- A fold of maxima dominates each of its inputs. -/
theorem foldr_max_ge {α : Type} (h : α → ℕ) :
    ∀ (l : List α) (x : α), x ∈ l →
      h x ≤ l.foldr (fun a acc => max acc (h a)) 1 := by
  intro l
  induction l with
  | nil => intro x hx; simp at hx
  | cons a as ih =>
      intro x hx
      rw [List.foldr_cons]
      rcases List.mem_cons.mp hx with rfl | hx
      · exact le_max_right _ _
      · exact le_trans (ih x hx) (le_max_left _ _)

/-- The substep count of a segment is large enough that each DOF moves
at most its resolution per substep. -/
theorem segmentSteps_resolution (res : List ℚ) (qA qB : Config) (i : ℕ)
    (hiA : i < qA.length) (hiB : i < qB.length) (hiR : i < res.length)
    (hres : 0 < res.getD i 0) :
    |qB.getD i 0 - qA.getD i 0| ≤ (segmentSteps res qA qB : ℚ) * res.getD i 0 := by
  have hlen2 : i < ((qA.zip qB).zip res).length := by
    simp only [List.length_zip]
    omega
  have hmem : ((qA.zip qB).zip res)[i] ∈ ((qA.zip qB).zip res) := List.getElem_mem hlen2
  have hel : ((qA.zip qB).zip res)[i] = ((qA[i], qB[i]), res[i]) := by
    simp [List.getElem_zip]
  have hge := foldr_max_ge
    (fun x => Int.toNat ⌈|x.1.2 - x.1.1| / x.2⌉) ((qA.zip qB).zip res) _ hmem
  rw [hel] at hge
  have hge2 : Int.toNat ⌈|qB[i] - qA[i]| / res[i]⌉ ≤
      segmentSteps res qA qB := hge
  rw [List.getD_eq_getElem qA 0 hiA, List.getD_eq_getElem qB 0 hiB,
    List.getD_eq_getElem res 0 hiR] at *
  set D := qB[i] - qA[i] with hD
  set r := res[i] with hr
  have h1 : (|D| / r : ℚ) ≤ ((⌈|D| / r⌉ : ℤ) : ℚ) := Int.le_ceil _
  have h2 : ((⌈|D| / r⌉ : ℤ) : ℚ) ≤ ((Int.toNat ⌈|D| / r⌉ : ℤ) : ℚ) := by
    exact_mod_cast Int.self_le_toNat _
  have h3 : ((Int.toNat ⌈|D| / r⌉ : ℤ) : ℚ) ≤ (segmentSteps res qA qB : ℚ) := by
    exact_mod_cast hge2
  have h4 : (|D| / r : ℚ) ≤ (segmentSteps res qA qB : ℚ) := le_trans h1 (le_trans h2 h3)
  rw [div_le_iff₀ hres] at h4
  nlinarith [abs_nonneg D, hres]

/-- C4, counterexample.  The claim says the accepted interval is
resampled and monitored *before* the step is appended to the raw path,
at a resolution scaled by the resolution multiplier.  In the code the
waypoint is appended *first* and the monitor runs afterwards — the
event trace of one accepted step starts with the append — and the
`dt_multiplier` parameter is never read, so calls differing only in the
multiplier behave identically. -/
theorem C4_resample_order_counterexample :
    ((fn_callback exEnv exPred
        (integrateSteps exEnv exPred (initState [0]) [(0, [0])]) 1 [1]).1.events).drop
      (integrateSteps exEnv exPred (initState [0]) [(0, [0])]).events.length
      = [Event.appendWp 1, Event.monitorAt 1] ∧
    monitorsThenAppend
      (((fn_callback exEnv exPred
        (integrateSteps exEnv exPred (initState [0]) [(0, [0])]) 1 [1]).1.events).drop
      (integrateSteps exEnv exPred (initState [0]) [(0, [0])]).events.length) = false ∧
    FollowVectorField exEnv exPred [0] exSteps 2 =
      FollowVectorField exEnv exPred [0] exSteps 1000 := by
  refine ⟨by with_unfolding_all decide, by with_unfolding_all decide,
    by with_unfolding_all rfl⟩

/-- C4, amended.  For every accepted step onto a non-empty raw path
whose checks all pass: the step is appended to the path *first*, and
then the constraint monitor runs at every collision-check sample of the
whole current path, in order (the contributed event trace is the append
followed by one monitor event per check sample); the check samples of a
segment are the linear interpolations at the `segmentSteps`
subdivisions; and that subdivision is fine enough that between
consecutive samples no DOF moves more than its (positive) resolution.
The resolution multiplier plays no role: `FollowVectorField` never
reads `dt_multiplier`. -/
theorem C4_resolution_monitoring_amended :
    (∀ (env : PlanEnv) (fnt : ℕ → Config → Status) (st : DriverState) (t : ℚ) (q : Config),
      st.path ≠ [] → (fn_callback env fnt st t q).2 = 0 →
      (fn_callback env fnt st t q).1.events =
        st.events ++ (Event.appendWp t ::
          (GetCollisionCheckPts env
            (st.path ++ [⟨t - pathDuration st.path, q⟩])).map
            (fun c => Event.monitorAt c.1))) ∧
    (∀ (res : List ℚ) (tA : ℚ) (qA : Config) (tB : ℚ) (qB : Config),
      (segmentChecks res tA qA tB qB).map Prod.snd =
        (List.range (segmentSteps res qA qB)).map
          (fun (j : ℕ) => lerpConfig qA qB (((j : ℚ) + 1) / (segmentSteps res qA qB : ℚ)))) ∧
    (∀ (res : List ℚ) (qA qB : Config) (j i : ℕ),
      i < qA.length → i < qB.length → i < res.length → 0 < res.getD i 0 →
      |(lerpConfig qA qB (((j : ℚ) + 1) / (segmentSteps res qA qB : ℚ))).getD i 0 -
        (lerpConfig qA qB ((j : ℚ) / (segmentSteps res qA qB : ℚ))).getD i 0| ≤
        res.getD i 0) := by
  refine ⟨?_, ?_, ?_⟩
  · intro env fnt st t q hne hok
    have hlen : ¬((st.path ++ [(⟨t - pathDuration st.path, q⟩ : Waypoint)]).length = 1) := by
      intro h
      rw [List.length_append] at h
      simp only [List.length_singleton] at h
      have h0 : st.path.length = 0 := by omega
      exact hne (List.length_eq_zero.mp h0)
    unfold fn_callback at hok ⊢
    dsimp only at hok ⊢
    rw [if_neg hlen] at hok ⊢
    cases hrc : (runChecks env fnt
        { st with path := st.path ++ [⟨t - pathDuration st.path, q⟩]
                  events := st.events ++ [Event.appendWp t] }
        (GetCollisionCheckPts env (st.path ++ [⟨t - pathDuration st.path, q⟩]))).2 with
    | some f =>
        rw [hrc] at hok
        dsimp only at hok
        exact absurd hok (by decide)
    | none =>
        dsimp only
        rw [runChecks_events env fnt _ _ hrc]
        dsimp only
        simp [List.append_assoc]
  · intro res tA qA tB qB
    simp [segmentChecks, List.map_map, Function.comp]
  · intro res qA qB j i hiA hiB hiR hres
    have hn : (0 : ℚ) < (segmentSteps res qA qB : ℚ) := by
      have := segmentSteps_pos res qA qB
      exact_mod_cast Nat.lt_of_lt_of_le Nat.zero_lt_one this
    rw [lerp_getD qA qB _ i hiA hiB, lerp_getD qA qB _ i hiA hiB]
    have hgap : qA.getD i 0 + (((j : ℚ) + 1) / (segmentSteps res qA qB : ℚ)) *
          (qB.getD i 0 - qA.getD i 0) -
        (qA.getD i 0 + ((j : ℚ) / (segmentSteps res qA qB : ℚ)) *
          (qB.getD i 0 - qA.getD i 0)) =
        (qB.getD i 0 - qA.getD i 0) / (segmentSteps res qA qB : ℚ) := by
      field_simp
      ring
    rw [hgap, abs_div, abs_of_pos hn, div_le_iff₀ hn]
    have := segmentSteps_resolution res qA qB i hiA hiB hiR hres
    nlinarith [this, hn]

/-- Witness for the amended C4 on the second accepted step of the
example run. -/
theorem C4_resolution_monitoring_amended_witness :
    (fn_callback exEnv exPred
        (integrateSteps exEnv exPred (initState [0]) [(0, [0])]) 1 [1]).1.events =
      (integrateSteps exEnv exPred (initState [0]) [(0, [0])]).events ++
        (Event.appendWp 1 ::
          (GetCollisionCheckPts exEnv
            ((integrateSteps exEnv exPred (initState [0]) [(0, [0])]).path ++
              [⟨1 - pathDuration
                  (integrateSteps exEnv exPred (initState [0]) [(0, [0])]).path, [1]⟩])).map
            (fun c => Event.monitorAt c.1)) :=
  C4_resolution_monitoring_amended.1 exEnv exPred
    (integrateSteps exEnv exPred (initState [0]) [(0, [0])]) 1 [1]
    (by with_unfolding_all decide) (by with_unfolding_all decide)

end PrPy
